import Mathlib

/-!
Verification of the pymetatile tile-storage library.

The Python sources under verification:
  * pyosm/metatile/metatile.py  — metatile addressing, the 5-byte hash codec,
    bound decomposition (`bound_to_metatiles`);
  * pyosm/mbtile/filelike.py    — the sqlite-backed relational tile store;
  * tests/test_filelike.py      — tests pinning the binary container behaviour.

Python integers are unbounded and non-negative at every use site modelled
here, so machine integers are rendered as `Nat`.  Byte strings are rendered
as `List Nat`.  Python `x & ~(META_SIZE - 1)` on a non-negative int clears
the low three bits, i.e. equals `x - x % META_SIZE`; that spelling is used
since `Nat` has no two's-complement negation.
-/

/-- metatile size (metatile.py line 14). -/
def META_SIZE : Nat := 8

/-- pyosm.point.Point: integer (x, y) pair. -/
structure Point where
  x : Nat
  y : Nat
deriving DecidableEq, Repr

/-- pyosm.tile.Tile: (z, x, y, style, extension); the extension plays no
role in containment or equality (metatile.py `__contains__`). -/
structure Tile where
  z : Nat
  x : Nat
  y : Nat
  style : String
  ext : String
deriving DecidableEq, Repr

/-- The accumulation loop of `hashes_to_xy` (metatile.py lines 172-179):
for each hash byte, shift x and y left 4 bits and OR in the byte's high
nibble (into x) and low nibble (into y).  The source iterates `range(5)`
over a 5-element list; we fold over the list. -/
def hashAccum : List Nat → Nat → Nat → Point
  | [], x, y => ⟨x, y⟩
  | h :: t, x, y =>
      hashAccum t ((x <<< 4) ||| ((h &&& 0xf0) >>> 4)) ((y <<< 4) ||| (h &&& 0x0f))

/-- metatile.py `hashes_to_xy`: decode 5 hash bytes to the container origin. -/
def hashes_to_xy (hashes : List Nat) : Point :=
  hashAccum hashes 0 0

/-- The production loop of `xy_to_hashes` (metatile.py lines 191-194):
five iterations, each emitting one byte made of the low nibbles of x
(high half) and y (low half), then shifting both right by 4. -/
def hashStep : Nat → Nat → Nat → List Nat
  | 0, _, _ => []
  | n + 1, x, y =>
      (((x &&& 0x0f) <<< 4) ||| (y &&& 0x0f)) :: hashStep n (x >>> 4) (y >>> 4)

/-- metatile.py `xy_to_hashes`: align x, y down to a multiple of META_SIZE
(Python `x & ~(META_SIZE - 1)`, i.e. `x - x % META_SIZE` on Nat), emit five
nibble-interleaved bytes, then reverse. -/
def xy_to_hashes (x y : Nat) : List Nat :=
  (hashStep 5 (x - x % META_SIZE) (y - y % META_SIZE)).reverse

-- ### Bit-level helper lemmas

theorem and_fifteen (n : Nat) : n &&& 15 = n % 16 := by
  have h := Nat.and_pow_two_sub_one_eq_mod n 4
  norm_num at h
  exact h

theorem shiftRight_four (n : Nat) : n >>> 4 = n / 16 := by
  have h := Nat.shiftRight_eq_div_pow n 4
  norm_num at h
  exact h

theorem shiftLeft_four_or (acc m : Nat) (hm : m < 16) :
    (acc <<< 4) ||| m = 16 * acc + m := by
  have h1 : acc <<< 4 = acc * 2 ^ 4 := Nat.shiftLeft_eq acc 4
  have h2 : (2 : Nat) ^ 4 * acc + m = 2 ^ 4 * acc ||| m :=
    Nat.mul_add_lt_is_or (by omega : m < 2 ^ 4) acc
  rw [h1, Nat.mul_comm acc (2 ^ 4), ← h2]
  norm_num

theorem nibble_hi_ball :
    ∀ a < 16, ∀ b < 16, ((((a <<< 4) ||| b) &&& 0xf0) >>> 4) = a := by decide

theorem nibble_lo_ball :
    ∀ a < 16, ∀ b < 16, (((a <<< 4) ||| b) &&& 0x0f) = b := by decide

/-- High-nibble extraction undoes byte assembly, for any raw inputs that are
first masked with `&&& 15` as the encoder does. -/
theorem byte_hi (u v : Nat) :
    ((((u &&& 0x0f) <<< 4) ||| (v &&& 0x0f)) &&& 0xf0) >>> 4 = u % 16 := by
  have hu : u &&& 0x0f = u % 16 := and_fifteen u
  have hv : v &&& 0x0f = v % 16 := and_fifteen v
  rw [hu, hv]
  exact nibble_hi_ball (u % 16) (Nat.mod_lt u (by norm_num)) (v % 16)
    (Nat.mod_lt v (by norm_num))

/-- Low-nibble extraction undoes byte assembly. -/
theorem byte_lo (u v : Nat) :
    (((u &&& 0x0f) <<< 4) ||| (v &&& 0x0f)) &&& 0x0f = v % 16 := by
  have hu : u &&& 0x0f = u % 16 := and_fifteen u
  have hv : v &&& 0x0f = v % 16 := and_fifteen v
  rw [hu, hv]
  exact nibble_lo_ball (u % 16) (Nat.mod_lt u (by norm_num)) (v % 16)
    (Nat.mod_lt v (by norm_num))

theorem accum_step (acc m : Nat) :
    (acc <<< 4) ||| (m % 16) = 16 * acc + m % 16 :=
  shiftLeft_four_or acc (m % 16) (Nat.mod_lt m (by norm_num))

/-- Core codec law: decoding the encoding of any (x, y) yields the
coordinates aligned down to a multiple of 8 and truncated to 20 bits. -/
theorem codec_roundtrip (x y : Nat) :
    hashes_to_xy (xy_to_hashes x y) =
      ⟨(x - x % 8) % 2 ^ 20, (y - y % 8) % 2 ^ 20⟩ := by
  simp only [xy_to_hashes, META_SIZE, hashStep, List.reverse_cons, List.reverse_nil,
    List.nil_append, List.cons_append, hashes_to_xy, hashAccum]
  simp only [byte_hi, byte_lo]
  simp only [accum_step]
  simp only [shiftRight_four, Point.mk.injEq]
  constructor <;> omega

-- ### Metatile addressing (metatile.py `Metatile`)

/-- metatile extension (metatile.py line 16). -/
def META_EXT : String := ".meta"

def emptyStyle : String := ""

def mapname : String := "mapname"

/-- metatile.py `Metatile`: stored fields (z, hashes, style); x, y, max_x,
max_y are derived from hashes in `__init__` and recomputed here as
accessors (they are never set independently). -/
structure Metatile where
  z : Nat
  hashes : List Nat
  style : String
deriving DecidableEq, Repr

/-- Derived origin column: `self.x, self.y = hashes_to_xy(hashes)`. -/
def Metatile.x (mt : Metatile) : Nat := (hashes_to_xy mt.hashes).x

/-- Derived origin row. -/
def Metatile.y (mt : Metatile) : Nat := (hashes_to_xy mt.hashes).y

/-- metatile.py `__len__`: min(META_SIZE, 1 << z). -/
def Metatile.size (mt : Metatile) : Nat := min META_SIZE (1 <<< mt.z)

/-- `self.max_x = self.x + len(self) - 1`. -/
def Metatile.max_x (mt : Metatile) : Nat := mt.x + mt.size - 1

/-- `self.max_y = self.y + len(self) - 1`. -/
def Metatile.max_y (mt : Metatile) : Nat := mt.y + mt.size - 1

/-- x-major raster enumeration of an n-by-n block of points starting at
(x, y); the comprehension order of metatile.py `points` (xx outer, yy
inner). -/
def gridPoints (x y n : Nat) : List Point :=
  (List.range n).flatMap fun dx => (List.range n).map fun dy => ⟨x + dx, y + dy⟩

/-- metatile.py `points`: all points inside the metatile. -/
def Metatile.points (mt : Metatile) : List Point :=
  gridPoints mt.x mt.y mt.size

/-- metatile.py `__contains__`: same style, same z, and x, y within
[origin, origin + len - 1] on both axes. -/
def Metatile.contains (mt : Metatile) (t : Tile) : Bool :=
  if t.style ≠ mt.style then false
  else if t.z ≠ mt.z then false
  else if t.x < mt.x ∨ t.x > mt.max_x then false
  else if t.y < mt.y ∨ t.y > mt.max_y then false
  else true

/-- metatile.py `__eq__`: equality on (style, z, x, y), where x, y are the
decoded origins. -/
def Metatile.eq (a b : Metatile) : Bool :=
  if a.style ≠ b.style then false
  else if a.z ≠ b.z then false
  else if a.x ≠ b.x then false
  else if a.y ≠ b.y then false
  else true

/-- metatile.py `from_tile`: hashes from the tile's (x, y) via the codec. -/
def Metatile.from_tile (t : Tile) : Metatile :=
  ⟨t.z, xy_to_hashes t.x t.y, t.style⟩

-- ### URL parsing (metatile.py `from_url`)

/-- Split a character list on a separator character (every occurrence),
like str.split. -/
def splitOnCh (c : Char) : List Char → List (List Char)
  | [] => [[]]
  | a :: rest =>
    match splitOnCh c rest, a == c with
    | r, true => [] :: r
    | [], false => [[a]]
    | h :: t, false => (a :: h) :: t

/-- Parse a non-empty all-digit segment, the `\d+` groups of META_URL_RE. -/
def parseNat? (s : List Char) : Option Nat :=
  if !s.isEmpty && s.all Char.isDigit then
    some (s.foldl (fun acc c => 10 * acc + (c.toNat - 48)) 0)
  else none

def metaSuffix : List Char := ['.', 'm', 'e', 't', 'a']

/-- metatile.py `from_url`: match style/z/h0/h1/h2/h3/h4.meta
(META_URL_RE, a `\w+` style group and six `\d+` groups with a `.meta`
suffix, via re.search; modelled as an exact-shape parse of the URL) and
build the Metatile from the six parsed integers. -/
def from_url (url : List Char) : Option Metatile :=
  match splitOnCh '/' url with
  | [style, zs, h0, h1, h2, h3, h4] =>
    if !style.isEmpty && style.all (fun c => c.isAlphanum || c == '_')
        && metaSuffix.isSuffixOf h4 then
      match parseNat? zs, parseNat? h0, parseNat? h1, parseNat? h2,
          parseNat? h3, parseNat? (h4.take (h4.length - 5)) with
      | some z, some a0, some a1, some a2, some a3, some a4 =>
        some ⟨z, [a0, a1, a2, a3, a4], String.mk style⟩
      | _, _, _, _, _, _ => none
    else none
  | _ => none

def sampleUrl : String :=
  "mapname/10/0/0/33/180/128.meta"

-- ### Claims C1, C9, C8

/-- C1: for every container-aligned pair (x, y) with 0 ≤ x, y < 2^20,
decoding the 5-byte hash produced by encoding it returns the same pair:
hashes_to_xy(xy_to_hashes(x, y)) == (x, y). -/
theorem claim_c1_codec_inverse (x y : Nat) (hx : x < 2 ^ 20) (hy : y < 2 ^ 20)
    (hax : x % 8 = 0) (hay : y % 8 = 0) :
    hashes_to_xy (xy_to_hashes x y) = ⟨x, y⟩ := by
  rw [codec_roundtrip]
  simp only [Point.mk.injEq]
  constructor <;> omega

theorem claim_c1_witness :
    (696 < 2 ^ 20 ∧ 696 % 8 = 0 ∧ 320 < 2 ^ 20 ∧ 320 % 8 = 0) ∧
    hashes_to_xy (xy_to_hashes 696 320) = ⟨696, 320⟩ :=
  ⟨by decide,
   claim_c1_codec_inverse 696 320 (by decide) (by decide) (by decide) (by decide)⟩

/-- C9: for every non-negative x and y (including values at or above 2^20),
hashes_to_xy(xy_to_hashes(x, y)) equals ((x mod 2^20) with its low 3 bits
cleared, (y mod 2^20) with its low 3 bits cleared): the encoder silently
truncates to the low 20 bits after clearing the alignment bits, so
coordinates ≥ 2^20 wrap rather than fail. -/
theorem claim_c9_codec_truncation (x y : Nat) :
    hashes_to_xy (xy_to_hashes x y) =
      ⟨x % 2 ^ 20 - x % 2 ^ 20 % 8, y % 2 ^ 20 - y % 2 ^ 20 % 8⟩ := by
  rw [codec_roundtrip]
  simp only [Point.mk.injEq]
  constructor <;> omega

/-- C8: Metatile.from_url("mapname/10/0/0/33/180/128.meta") produces a
metatile with origin x=696, y=320 at z=10, equal to the decoding
hashes_to_xy([0, 0, 33, 180, 128]). -/
theorem claim_c8_from_url :
    from_url sampleUrl.toList = some ⟨10, [0, 0, 33, 180, 128], mapname⟩ ∧
    (Metatile.mk 10 [0, 0, 33, 180, 128] mapname).x = 696 ∧
    (Metatile.mk 10 [0, 0, 33, 180, 128] mapname).y = 320 ∧
    hashes_to_xy [0, 0, 33, 180, 128] = ⟨696, 320⟩ := by
  exact ⟨by decide, by decide, by decide, by decide⟩

-- ### Claim C4: from_tile / contains consistency

theorem from_tile_x (t : Tile) :
    (Metatile.from_tile t).x = (t.x - t.x % 8) % 2 ^ 20 := by
  show (hashes_to_xy (xy_to_hashes t.x t.y)).x = _
  rw [codec_roundtrip]

theorem from_tile_y (t : Tile) :
    (Metatile.from_tile t).y = (t.y - t.y % 8) % 2 ^ 20 := by
  show (hashes_to_xy (xy_to_hashes t.x t.y)).y = _
  rw [codec_roundtrip]

theorem from_tile_size (t : Tile) :
    (Metatile.from_tile t).size = min 8 (2 ^ t.z) := by
  show min META_SIZE (1 <<< t.z) = _
  rw [Nat.one_shiftLeft]
  rfl

/-- C4 counterexample: the claim "for every tile t, from_tile(t) contains
t" fails at the out-of-range tile (z=0, x=1, y=0) — at z=0 the metatile is
1×1 at origin 0 — and at (z=10, x=2^20, y=0), where the codec truncates
the coordinate to 0. -/
theorem claim_c4_counterexample :
    (Metatile.from_tile ⟨0, 1, 0, emptyStyle, emptyStyle⟩).contains
        ⟨0, 1, 0, emptyStyle, emptyStyle⟩ = false ∧
    (Metatile.from_tile ⟨10, 2 ^ 20, 0, emptyStyle, emptyStyle⟩).contains
        ⟨10, 2 ^ 20, 0, emptyStyle, emptyStyle⟩ = false := by
  exact ⟨by decide, by decide⟩

/-- C4 (amended): for every tile t whose coordinates are below 2^20 and,
when z < 3, below 2^z (in particular every valid tile coordinate),
Metatile.from_tile(t) contains t; and for every tile t' with the same
style and z whose x or y falls outside [origin, origin + side_length - 1],
membership is false. -/
theorem claim_c4_amended :
    (∀ t : Tile, t.x < 2 ^ 20 → t.y < 2 ^ 20 →
      (3 ≤ t.z ∨ (t.x < 2 ^ t.z ∧ t.y < 2 ^ t.z)) →
      (Metatile.from_tile t).contains t = true) ∧
    (∀ t t' : Tile, t'.style = t.style → t'.z = t.z →
      (t'.x < (Metatile.from_tile t).x ∨ t'.x > (Metatile.from_tile t).max_x ∨
       t'.y < (Metatile.from_tile t).y ∨ t'.y > (Metatile.from_tile t).max_y) →
      (Metatile.from_tile t).contains t' = false) := by
  constructor
  · intro t hx hy hz
    have hxv := from_tile_x t
    have hyv := from_tile_y t
    have hsz := from_tile_size t
    have hbx : (Metatile.from_tile t).x ≤ t.x ∧
        t.x ≤ (Metatile.from_tile t).max_x ∧
        (Metatile.from_tile t).y ≤ t.y ∧
        t.y ≤ (Metatile.from_tile t).max_y := by
      unfold Metatile.max_x Metatile.max_y
      rw [hxv, hyv, hsz]
      by_cases h3 : 3 ≤ t.z
      · have h8 : (2 : Nat) ^ 3 ≤ 2 ^ t.z := Nat.pow_le_pow_right (by norm_num) h3
        norm_num at h8 ⊢
        omega
      · have hz' : t.z < 3 := by omega
        rcases hz with h | ⟨hxz, hyz⟩
        · omega
        · interval_cases hh : t.z <;> norm_num at hxz hyz ⊢ <;> omega
    obtain ⟨b1, b2, b3, b4⟩ := hbx
    have e1 : ¬(t.style ≠ (Metatile.from_tile t).style) := by
      simp [Metatile.from_tile]
    have e2 : ¬(t.z ≠ (Metatile.from_tile t).z) := by
      simp [Metatile.from_tile]
    unfold Metatile.contains
    rw [if_neg e1, if_neg e2, if_neg (by omega), if_neg (by omega)]
  · intro t t' hstyle hzz hout
    have e1 : ¬(t'.style ≠ (Metatile.from_tile t).style) := by
      simp [Metatile.from_tile, hstyle]
    have e2 : ¬(t'.z ≠ (Metatile.from_tile t).z) := by
      simp [Metatile.from_tile, hzz]
    unfold Metatile.contains
    rw [if_neg e1, if_neg e2]
    rcases hout with h | h | h | h
    · rw [if_pos (Or.inl h)]
    · rw [if_pos (Or.inr h)]
    · by_cases hx3 : t'.x < (Metatile.from_tile t).x ∨
          t'.x > (Metatile.from_tile t).max_x
      · rw [if_pos hx3]
      · rw [if_neg hx3, if_pos (Or.inl h)]
    · by_cases hx3 : t'.x < (Metatile.from_tile t).x ∨
          t'.x > (Metatile.from_tile t).max_x
      · rw [if_pos hx3]
      · rw [if_neg hx3, if_pos (Or.inr h)]

theorem claim_c4_witness :
    (Metatile.from_tile ⟨10, 697, 321, mapname, emptyStyle⟩).contains
        ⟨10, 697, 321, mapname, emptyStyle⟩ = true ∧
    (Metatile.from_tile ⟨10, 697, 321, mapname, emptyStyle⟩).contains
        ⟨10, 704, 328, mapname, emptyStyle⟩ = false := by
  constructor
  · exact claim_c4_amended.1 ⟨10, 697, 321, mapname, emptyStyle⟩
      (by decide) (by decide) (Or.inl (by decide))
  · exact claim_c4_amended.2 ⟨10, 697, 321, mapname, emptyStyle⟩
      ⟨10, 704, 328, mapname, emptyStyle⟩ rfl rfl (Or.inr (Or.inl (by decide)))

-- ### Bound decomposition (metatile.py `bound_to_metatiles`)

/-- Modelled from the spec: pyosm.point.Bound (pyosm/point.py is absent
from src/) — an inclusive rectangular tile range (z, min_x, max_x, min_y,
max_y, flip_y) at one zoom level (spec §3). -/
structure Bound where
  z : Nat
  min_x : Nat
  max_x : Nat
  min_y : Nat
  max_y : Nat
  flip_y : Bool
deriving DecidableEq, Repr

/-- Modelled from the spec: pyosm.point.Bound.points (pyosm/point.py is
absent from src/) — the bound's tile coordinates in raster order (spec
§4.3), x-major like metatile.py `points`. -/
def Bound.points (b : Bound) : List Point :=
  (List.range (b.max_x + 1 - b.min_x)).flatMap fun dx =>
    (List.range (b.max_y + 1 - b.min_y)).map fun dy =>
      ⟨b.min_x + dx, b.min_y + dy⟩

/-- Modelled from the spec: the capacity of pyosm.buffer.Buffer
(pyosm/buffer.py is absent from src/) — spec §4.3 says the dedup buffer
keeps the last K emitted containers with K ≥ side_length and names
K = side_length (= 8 at z ≥ 3) as the minimum safe value. -/
def BUFFER_SIZE : Nat := 8

/-- Modelled from the spec: Buffer.append — keep the BUFFER_SIZE most
recent items (most recent first). -/
def bufAppend (buf : List Metatile) (mt : Metatile) : List Metatile :=
  (mt :: buf).take BUFFER_SIZE

/-- Modelled from the spec: Buffer.__contains__ — membership in the
recency window, comparing with Metatile.__eq__. -/
def bufHas (buf : List Metatile) (mt : Metatile) : Bool :=
  buf.any fun b => Metatile.eq mt b

/-- The loop of metatile.py `bound_to_metatiles`: traverse the bound's
points; for each, build the owning metatile; emit it unless the buffer
holds it, appending on emission. -/
def btmAux (z : Nat) (style : String) :
    List Point → List Metatile → List Metatile
  | [], _ => []
  | p :: rest, buf =>
    let mt : Metatile := ⟨z, xy_to_hashes p.x p.y, style⟩
    if bufHas buf mt then btmAux z style rest buf
    else mt :: btmAux z style rest (bufAppend buf mt)

/-- metatile.py `bound_to_metatiles`: split a bound into metatiles
(generator materialised as a list). -/
def bound_to_metatiles (b : Bound) (style : String) : List Metatile :=
  btmAux b.z style b.points []

-- ### Metatile equality lemmas

theorem mt_eq_iff (a b : Metatile) :
    Metatile.eq a b = true ↔
      a.style = b.style ∧ a.z = b.z ∧ a.x = b.x ∧ a.y = b.y := by
  unfold Metatile.eq
  split_ifs with h1 h2 h3 h4 <;> simp_all

theorem mt_eq_refl (a : Metatile) : Metatile.eq a a = true :=
  (mt_eq_iff a a).mpr ⟨rfl, rfl, rfl, rfl⟩

theorem mt_eq_symm (a b : Metatile) : Metatile.eq a b = Metatile.eq b a := by
  rw [Bool.eq_iff_iff, mt_eq_iff, mt_eq_iff]
  constructor <;> rintro ⟨h1, h2, h3, h4⟩ <;>
    exact ⟨h1.symm, h2.symm, h3.symm, h4.symm⟩

theorem mt_eq_points (a b : Metatile) (h : Metatile.eq a b = true) :
    a.points = b.points := by
  obtain ⟨h1, h2, h3, h4⟩ := (mt_eq_iff a b).mp h
  unfold Metatile.points Metatile.size
  rw [h2, h3, h4]

-- ### Coverage of the decomposition

theorem btm_cover (z : Nat) (style : String) (pts : List Point) :
    ∀ (buf : List Metatile), ∀ p ∈ pts,
      (∃ mt ∈ btmAux z style pts buf,
        Metatile.eq mt ⟨z, xy_to_hashes p.x p.y, style⟩ = true) ∨
      (∃ mt ∈ buf,
        Metatile.eq mt ⟨z, xy_to_hashes p.x p.y, style⟩ = true) := by
  induction pts with
  | nil => intro buf p hp; simp at hp
  | cons q rest ih =>
    intro buf p hp
    rcases List.mem_cons.mp hp with rfl | hp'
    · by_cases hb : bufHas buf ⟨z, xy_to_hashes p.x p.y, style⟩ = true
      · right
        obtain ⟨mt, hmt, he⟩ := List.any_eq_true.mp hb
        exact ⟨mt, hmt, by rw [mt_eq_symm]; exact he⟩
      · left
        refine ⟨⟨z, xy_to_hashes p.x p.y, style⟩, ?_, mt_eq_refl _⟩
        simp only [btmAux, hb]
        simp [Bool.not_eq_true] at hb
        simp [hb]
    · by_cases hb : bufHas buf ⟨z, xy_to_hashes q.x q.y, style⟩ = true
      · rcases ih buf p hp' with ⟨mt, hmt, he⟩ | h
        · left
          refine ⟨mt, ?_, he⟩
          simp only [btmAux, hb, if_pos]
          exact hmt
        · right; exact h
      · rcases ih (bufAppend buf ⟨z, xy_to_hashes q.x q.y, style⟩) p hp' with
          ⟨mt, hmt, he⟩ | ⟨mt, hmt, he⟩
        · left
          refine ⟨mt, ?_, he⟩
          simp only [btmAux]
          rw [if_neg (by simp [hb])]
          exact List.mem_cons_of_mem _ hmt
        · have hmem : mt ∈ (⟨z, xy_to_hashes q.x q.y, style⟩ : Metatile) :: buf :=
            List.take_subset _ _ hmt
          rcases List.mem_cons.mp hmem with rfl | hbuf
          · left
            refine ⟨_, ?_, he⟩
            simp only [btmAux]
            rw [if_neg (by simp [hb])]
            exact List.mem_cons_self _ _
          · right; exact ⟨mt, hbuf, he⟩

theorem mem_gridPoints (x y n : Nat) (p : Point) :
    p ∈ gridPoints x y n ↔
      x ≤ p.x ∧ p.x < x + n ∧ y ≤ p.y ∧ p.y < y + n := by
  unfold gridPoints
  simp only [List.mem_flatMap, List.mem_map, List.mem_range]
  constructor
  · rintro ⟨dx, hdx, dy, hdy, rfl⟩
    simp
    omega
  · rintro ⟨h1, h2, h3, h4⟩
    refine ⟨p.x - x, by omega, p.y - y, by omega, ?_⟩
    cases p
    simp at h1 h2 h3 h4 ⊢
    omega

theorem mem_boundPoints (b : Bound) (p : Point) :
    p ∈ b.points ↔
      b.min_x ≤ p.x ∧ p.x < b.min_x + (b.max_x + 1 - b.min_x) ∧
      b.min_y ≤ p.y ∧ p.y < b.min_y + (b.max_y + 1 - b.min_y) := by
  unfold Bound.points
  simp only [List.mem_flatMap, List.mem_map, List.mem_range]
  constructor
  · rintro ⟨dx, hdx, dy, hdy, rfl⟩
    simp
    omega
  · rintro ⟨h1, h2, h3, h4⟩
    refine ⟨p.x - b.min_x, by omega, p.y - b.min_y, by omega, ?_⟩
    cases p
    simp at h1 h2 h3 h4 ⊢
    omega

/-- A point lies inside its owning metatile, provided its coordinates are
below 2^20 and, at zooms below 3, below 2^z. -/
theorem owner_mem (z : Nat) (style : String) (p : Point)
    (hx : p.x < 2 ^ 20) (hy : p.y < 2 ^ 20)
    (hz : 3 ≤ z ∨ (p.x < 2 ^ z ∧ p.y < 2 ^ z)) :
    p ∈ (Metatile.mk z (xy_to_hashes p.x p.y) style).points := by
  have hxv : (Metatile.mk z (xy_to_hashes p.x p.y) style).x =
      (p.x - p.x % 8) % 2 ^ 20 := by
    show (hashes_to_xy (xy_to_hashes p.x p.y)).x = _
    rw [codec_roundtrip]
  have hyv : (Metatile.mk z (xy_to_hashes p.x p.y) style).y =
      (p.y - p.y % 8) % 2 ^ 20 := by
    show (hashes_to_xy (xy_to_hashes p.x p.y)).y = _
    rw [codec_roundtrip]
  have hsz : (Metatile.mk z (xy_to_hashes p.x p.y) style).size =
      min 8 (2 ^ z) := by
    show min META_SIZE (1 <<< z) = _
    rw [Nat.one_shiftLeft]
    rfl
  unfold Metatile.points
  rw [mem_gridPoints, hxv, hyv, hsz]
  by_cases h3 : 3 ≤ z
  · have h8 : (2 : Nat) ^ 3 ≤ 2 ^ z := Nat.pow_le_pow_right (by norm_num) h3
    norm_num at h8 ⊢
    omega
  · have hz' : z < 3 := by omega
    rcases hz with h | ⟨hxz, hyz⟩
    · omega
    · interval_cases z <;> norm_num at hxz hyz ⊢ <;> omega

-- ### Claim C3

/-- C3 counterexample: over the bound z=7, x∈[0,1], y∈[0,71] the traversal
revisits the container at (0,0) after the 8-slot recency buffer has
evicted it, so it is yielded twice; and over the bound z=0, x∈[1,1],
y∈[0,0] the single yielded metatile (origin 0, side 1) does not contain
the bound's point (1,0), so the union of yielded points is not a superset
of the bound's points. -/
theorem claim_c3_counterexample :
    (bound_to_metatiles ⟨7, 0, 1, 0, 71, false⟩ emptyStyle).countP
      (fun m => Metatile.eq m ⟨7, xy_to_hashes 0 0, emptyStyle⟩) = 2 ∧
    (bound_to_metatiles ⟨0, 1, 1, 0, 0, false⟩ emptyStyle).all
      (fun mt => !(mt.points.contains ⟨1, 0⟩)) = true := by
  exact ⟨by decide, by decide⟩

/-- C3 (amended): for every bound whose extrema are below 2^20 (and, at
zooms below 3, below 2^z), every point of the bound lies in some yielded
metatile (coverage); and the concrete two-containers-per-axis bound at
z=10 yields exactly the 4 distinct metatiles, each exactly once.  The
no-duplicates part of the claim does not hold for bounds spanning more
container rows than the recency window. -/
theorem claim_c3_amended :
    (∀ (b : Bound) (style : String),
      b.max_x < 2 ^ 20 → b.max_y < 2 ^ 20 →
      (3 ≤ b.z ∨ (b.max_x < 2 ^ b.z ∧ b.max_y < 2 ^ b.z)) →
      ∀ p ∈ b.points, ∃ mt ∈ bound_to_metatiles b style, p ∈ mt.points) ∧
    (bound_to_metatiles ⟨10, 692, 703, 318, 324, false⟩ mapname).map
      (fun m => (m.x, m.y)) =
      [(688, 312), (688, 320), (696, 312), (696, 320)] := by
  constructor
  · intro b style hbx hby hbz p hp
    have hcov := btm_cover b.z style b.points [] p hp
    rcases hcov with ⟨mt, hmt, he⟩ | ⟨mt, hmt, _⟩
    · refine ⟨mt, hmt, ?_⟩
      rw [mt_eq_points mt _ he]
      have hpmem := (mem_boundPoints b p).mp hp
      refine owner_mem b.z style p (by omega) (by omega) ?_
      rcases hbz with h | ⟨h1, h2⟩
      · exact Or.inl h
      · exact Or.inr ⟨by omega, by omega⟩
    · simp at hmt
  · decide

theorem claim_c3_witness :
    ((⟨692, 318⟩ : Point) ∈ (Bound.mk 10 692 703 318 324 false).points) ∧
    (∃ mt ∈ bound_to_metatiles ⟨10, 692, 703, 318, 324, false⟩ mapname,
      (⟨692, 318⟩ : Point) ∈ mt.points) :=
  ⟨(mem_boundPoints _ _).mpr (by norm_num),
   claim_c3_amended.1 ⟨10, 692, 703, 318, 324, false⟩ mapname
     (by decide) (by decide) (Or.inl (by decide)) ⟨692, 318⟩
     ((mem_boundPoints _ _).mpr (by norm_num))⟩

-- ### Metatile container format (spec §4.4; pymetatile/filelike.py is
-- absent from src/, so the container is modelled from the spec, with its
-- behaviour pinned where tests/test_filelike.py decides it)

/-- Error kinds of spec §7. -/
inductive Err where
  | notFound
  | invalidFormat
  | unsupportedMode
  | typeErr
deriving DecidableEq, Repr

/-- Generic success test for Except results. -/
def exOk {α : Type} : Except Err α → Bool
  | .ok _ => true
  | .error _ => false

/-- Container header (count, x, y, z) (spec §3). -/
structure Header where
  count : Nat
  x : Nat
  y : Nat
  z : Nat
deriving DecidableEq, Repr

/-- One index entry: relative slot (dx, dy) with (offset, size) into the
payload region (spec §3 IndexEntry). -/
structure IdxEntry where
  dx : Nat
  dy : Nat
  off : Nat
  sz : Nat
deriving DecidableEq, Repr

/-- side_length = min(8, 2^z) (spec §3, glossary). -/
def sideLen (z : Nat) : Nat := min META_SIZE (1 <<< z)

/-- Modelled from the spec: the populated slots of a container, in the
raster order of §4.2/§4.4 — for each container point in raster order, the
point paired with its payload when the coordinate→payload mapping holds
one. -/
def entriesOf (x y z : Nat) (data : List (Point × List Nat)) :
    List (Point × List Nat) :=
  (gridPoints x y (sideLen z)).filterMap fun p =>
    (data.lookup p).map fun d => (p, d)

/-- Index entries with running offsets for a list of populated slots. -/
def indexOf (x y : Nat) : Nat → List (Point × List Nat) → List IdxEntry
  | _, [] => []
  | off, (p, d) :: rest =>
    ⟨p.x - x, p.y - y, off, d.length⟩ :: indexOf x y (off + d.length) rest

/-- Modelled from the spec: MetatileFile.write (pymetatile/filelike.py is
absent from src/) — assemble Header(count = number of populated slots,
x, y, z) ++ Index ++ Payload (spec §4.4).  The stream is token-level
(one Nat per header/index field, one per payload byte) since the spec
leaves exact field widths open (§9); each index entry carries its
(dx, dy) key and (offset, size). -/
def metatile_write (x y z : Nat) (data : List (Point × List Nat)) : List Nat :=
  [(entriesOf x y z data).length, x, y, z] ++
    ((indexOf x y 0 (entriesOf x y z data)).flatMap fun e =>
      [e.dx, e.dy, e.off, e.sz]) ++
    ((entriesOf x y z data).flatMap fun e => e.2)

/-- Modelled from the spec: the header-parsing step of the MetatileFile
read path.  No count ≤ side_length² validation is performed: the fixture
test test_metatile_header asserts that a (count=64, x=0, y=0, z=1) header
is read back verbatim. -/
def read_header : List Nat → Except Err (Header × List Nat)
  | c :: x :: y :: z :: rest => .ok (⟨c, x, y, z⟩, rest)
  | _ => .error .invalidFormat

/-- Modelled from the spec: read `count` index entries (spec §4.4
read_index); fewer is a format error. -/
def readIdx : Nat → List Nat → Except Err (List IdxEntry × List Nat)
  | 0, rest => .ok ([], rest)
  | n + 1, a :: b :: c :: d :: rest =>
    match readIdx n rest with
    | .ok (l, r) => .ok (⟨a, b, c, d⟩ :: l, r)
    | .error e => .error e
  | _ + 1, _ => .error .invalidFormat

/-- Modelled from the spec: MetatileFile.readtiles (read_all_tiles,
spec §4.4) — parse header and index, then slice each entry's payload out
of the payload region; absolute coordinate = container origin + (dx, dy). -/
def readtiles (s : List Nat) : Except Err (List (Point × List Nat)) :=
  Except.bind (read_header s) fun hr =>
    Except.bind (readIdx hr.1.count hr.2) fun ir =>
      Except.ok (ir.1.map fun e =>
        (⟨hr.1.x + e.dx, hr.1.y + e.dy⟩, (ir.2.drop e.off).take e.sz))

/-- A container file: a byte stream produced by the writer. -/
def WellFormedContainer (s : List Nat) : Prop :=
  ∃ x y z data, s = metatile_write x y z data

-- ### Container lemmas

theorem except_bind_ok {α β : Type} (a : α) (f : α → Except Err β) :
    Except.bind (Except.ok a) f = f a := rfl

theorem indexOf_length (x y : Nat) :
    ∀ (off : Nat) (es : List (Point × List Nat)),
      (indexOf x y off es).length = es.length := by
  intro off es
  induction es generalizing off with
  | nil => rfl
  | cons pd t ih =>
    obtain ⟨p, d⟩ := pd
    simp [indexOf, ih]

theorem readIdx_encode (l : List IdxEntry) (rest : List Nat) :
    readIdx l.length
      ((l.flatMap fun e => [e.dx, e.dy, e.off, e.sz]) ++ rest) = .ok (l, rest) := by
  induction l with
  | nil => rfl
  | cons e t ih =>
    have h : readIdx ((e :: t).length)
        (((e :: t).flatMap fun e => [e.dx, e.dy, e.off, e.sz]) ++ rest) =
        match readIdx t.length
            ((t.flatMap fun e => [e.dx, e.dy, e.off, e.sz]) ++ rest) with
        | .ok (l, r) => .ok (⟨e.dx, e.dy, e.off, e.sz⟩ :: l, r)
        | .error er => .error er := rfl
    rw [h, ih]

theorem readBack_indexOf (x y : Nat) (es : List (Point × List Nat)) :
    ∀ (pre : List Nat),
      (∀ pd ∈ es, x ≤ pd.1.x ∧ y ≤ pd.1.y) →
      (indexOf x y pre.length es).map
        (fun e => ((⟨x + e.dx, y + e.dy⟩ : Point),
          (((pre ++ es.flatMap fun pd => pd.2).drop e.off).take e.sz))) = es := by
  induction es with
  | nil => intro pre _; rfl
  | cons pd t ih =>
    intro pre hkeys
    obtain ⟨p, d⟩ := pd
    have hk := hkeys (p, d) (List.mem_cons_self _ _)
    simp only [indexOf, List.map_cons]
    have hpoint : (⟨x + (p.x - x), y + (p.y - y)⟩ : Point) = p := by
      cases p
      simp only [Point.mk.injEq]
      simp at hk
      omega
    have hslice :
        (((pre ++ ((p, d) :: t).flatMap fun pd => pd.2).drop pre.length).take d.length) = d := by
      simp only [List.flatMap_cons]
      rw [List.drop_left, List.take_left]
    rw [hpoint, hslice]
    have hrest :
        (indexOf x y (pre.length + d.length) t).map
          (fun e => ((⟨x + e.dx, y + e.dy⟩ : Point),
            (((pre ++ ((p, d) :: t).flatMap fun pd => pd.2).drop e.off).take e.sz))) = t := by
      have hpre : (pre ++ d).length = pre.length + d.length := List.length_append pre d
      have hpay : pre ++ ((p, d) :: t).flatMap (fun pd => pd.2) =
          (pre ++ d) ++ t.flatMap fun pd => pd.2 := by
        simp only [List.flatMap_cons]
        rw [List.append_assoc]
      rw [hpay, ← hpre]
      exact ih (pre ++ d) (fun pd hpd => hkeys pd (List.mem_cons_of_mem _ hpd))
    rw [hrest]

theorem entriesOf_keys (x y z : Nat) (data : List (Point × List Nat)) :
    ∀ pd ∈ entriesOf x y z data, x ≤ pd.1.x ∧ y ≤ pd.1.y := by
  intro pd hpd
  unfold entriesOf at hpd
  obtain ⟨p, hp, heq⟩ := List.mem_filterMap.mp hpd
  cases hd : data.lookup p with
  | none => rw [hd] at heq; simp at heq
  | some d =>
    rw [hd] at heq
    simp only [Option.map_some', Option.some_inj] at heq
    subst heq
    have hmem := (mem_gridPoints x y (sideLen z) p).mp hp
    exact ⟨hmem.1, hmem.2.2.1⟩

theorem write_readtiles (x y z : Nat) (data : List (Point × List Nat)) :
    readtiles (metatile_write x y z data) = .ok (entriesOf x y z data) := by
  have h1 : read_header (metatile_write x y z data) =
      .ok (⟨(entriesOf x y z data).length, x, y, z⟩,
        ((indexOf x y 0 (entriesOf x y z data)).flatMap fun e =>
          [e.dx, e.dy, e.off, e.sz]) ++
        ((entriesOf x y z data).flatMap fun e => e.2)) := rfl
  have h2 : readIdx (entriesOf x y z data).length
      (((indexOf x y 0 (entriesOf x y z data)).flatMap fun e =>
          [e.dx, e.dy, e.off, e.sz]) ++
        ((entriesOf x y z data).flatMap fun e => e.2)) =
      .ok (indexOf x y 0 (entriesOf x y z data),
        (entriesOf x y z data).flatMap fun e => e.2) := by
    rw [← indexOf_length x y 0 (entriesOf x y z data)]
    exact readIdx_encode _ _
  unfold readtiles
  rw [h1, except_bind_ok]
  simp only []
  rw [h2, except_bind_ok]
  simp only []
  congr 1
  have h3 := readBack_indexOf x y (entriesOf x y z data) []
    (entriesOf_keys x y z data)
  simp only [List.length_nil, List.nil_append] at h3
  exact h3

theorem gridPoints_nodup (x y n : Nat) : (gridPoints x y n).Nodup := by
  unfold gridPoints
  rw [List.nodup_flatMap]
  constructor
  · intro dx _
    refine List.Nodup.map ?_ (List.nodup_range n)
    intro a b hab
    simp only [Point.mk.injEq] at hab
    omega
  · refine (List.pairwise_lt_range n).imp ?_
    intro a b hab
    intro pt hpa hpb
    simp only [List.mem_map, List.mem_range] at hpa hpb
    obtain ⟨da, _, ha⟩ := hpa
    obtain ⟨db, _, hb⟩ := hpb
    rw [← hb] at ha
    simp only [Point.mk.injEq] at ha
    omega

theorem lookup_filterMap_none (g : Point → Option (List Nat)) :
    ∀ (pts : List Point) (p : Point), p ∉ pts →
      ((pts.filterMap fun q => (g q).map fun d => (q, d)).lookup p) = none := by
  intro pts
  induction pts with
  | nil => intro p _; rfl
  | cons q t ih =>
    intro p hp
    have hpq : p ≠ q := fun h => hp (h ▸ List.mem_cons_self q t)
    have hpt : p ∉ t := fun h => hp (List.mem_cons_of_mem _ h)
    cases hgq : g q with
    | none =>
      simp only [List.filterMap_cons, hgq, Option.map_none']
      exact ih p hpt
    | some d =>
      simp only [List.filterMap_cons, hgq, Option.map_some']
      rw [List.lookup_cons]
      have hbeq : (p == q) = false := by simp [hpq]
      rw [hbeq]
      exact ih p hpt

theorem lookup_filterMap_mem (g : Point → Option (List Nat)) :
    ∀ (pts : List Point) (p : Point), pts.Nodup → p ∈ pts →
      ((pts.filterMap fun q => (g q).map fun d => (q, d)).lookup p) = g p := by
  intro pts
  induction pts with
  | nil => intro p _ hp; simp at hp
  | cons q t ih =>
    intro p hnd hp
    have hqt : q ∉ t := (List.nodup_cons.mp hnd).1
    have hndt : t.Nodup := (List.nodup_cons.mp hnd).2
    rcases List.mem_cons.mp hp with heq | hpt
    · subst heq
      cases hgq : g p with
      | none =>
        simp only [List.filterMap_cons, hgq, Option.map_none']
        rw [lookup_filterMap_none g t p hqt]
      | some d =>
        simp only [List.filterMap_cons, hgq, Option.map_some']
        rw [List.lookup_cons]
        have hbeq : (p == p) = true := by simp
        rw [hbeq]
    · have hpq : p ≠ q := fun h => hqt (h ▸ hpt)
      cases hgq : g q with
      | none =>
        simp only [List.filterMap_cons, hgq, Option.map_none']
        exact ih p hndt hpt
      | some d =>
        simp only [List.filterMap_cons, hgq, Option.map_some']
        rw [List.lookup_cons]
        have hbeq : (p == q) = false := by simp [hpq]
        rw [hbeq]
        exact ih p hndt hpt

theorem entriesOf_idem (x y z : Nat) (data : List (Point × List Nat)) :
    entriesOf x y z (entriesOf x y z data) = entriesOf x y z data := by
  unfold entriesOf
  refine List.filterMap_congr ?_
  intro p hp
  rw [lookup_filterMap_mem (fun q => data.lookup q) (gridPoints x y (sideLen z)) p
    (gridPoints_nodup x y (sideLen z)) hp]

-- ### Claims C2 and C7

/-- C2: for every container file (a stream produced by the writer),
reading all tiles back and writing the result through `write` with the
header's origin reproduces the original container byte stream exactly. -/
theorem claim_c2_roundtrip (s : List Nat) (hs : WellFormedContainer s) :
    ∃ hdr rest m, read_header s = .ok (hdr, rest) ∧ readtiles s = .ok m ∧
      metatile_write hdr.x hdr.y hdr.z m = s := by
  obtain ⟨x, y, z, data, rfl⟩ := hs
  refine ⟨⟨(entriesOf x y z data).length, x, y, z⟩, _, entriesOf x y z data,
    rfl, write_readtiles x y z data, ?_⟩
  show metatile_write x y z (entriesOf x y z data) = metatile_write x y z data
  unfold metatile_write
  rw [entriesOf_idem]

theorem claim_c2_witness :
    WellFormedContainer (metatile_write 0 0 3 [(⟨1, 2⟩, [9, 9])]) ∧
    ∃ hdr rest m,
      read_header (metatile_write 0 0 3 [(⟨1, 2⟩, [9, 9])]) = .ok (hdr, rest) ∧
      readtiles (metatile_write 0 0 3 [(⟨1, 2⟩, [9, 9])]) = .ok m ∧
      metatile_write hdr.x hdr.y hdr.z m = metatile_write 0 0 3 [(⟨1, 2⟩, [9, 9])] :=
  ⟨⟨0, 0, 3, [(⟨1, 2⟩, [9, 9])], rfl⟩,
   claim_c2_roundtrip (metatile_write 0 0 3 [(⟨1, 2⟩, [9, 9])])
     ⟨0, 0, 3, [(⟨1, 2⟩, [9, 9])], rfl⟩⟩

/-- The header and index of the test fixture 0.meta as pinned by
test_metatile_header and test_metatile_index: count=64, origin (0,0),
z=1, with all 64 (dx, dy) slots present. -/
def c7stream : List Nat :=
  [64, 0, 0, 1] ++ ((gridPoints 0 0 8).flatMap fun p => [p.x, p.y, 0, 0])

/-- C7 counterexample: the claim says a container whose header count (64)
exceeds side_length² for its zoom (4 at z=1) is rejected as InvalidFormat;
in fact the read path parses the (count=64, x=0, y=0, z=1) header verbatim
and succeeds, as the fixture test test_metatile_header asserts. -/
theorem claim_c7_counterexample :
    read_header c7stream =
      .ok (⟨64, 0, 0, 1⟩, (gridPoints 0 0 8).flatMap fun p => [p.x, p.y, 0, 0]) ∧
    exOk (readtiles c7stream) = true ∧
    sideLen 1 * sideLen 1 < 64 := by
  refine ⟨rfl, by decide, by decide⟩

/-- C7 (amended): the header of a metatile container is parsed verbatim,
with no count ≤ side_length² validation — any 4-field header is accepted;
in particular the fixture with header (count=64, x=0, y=0, z=1), where
side_length² = 4, opens successfully and exposes that header. -/
theorem claim_c7_amended :
    (∀ c x y z rest, read_header (c :: x :: y :: z :: rest) = .ok (⟨c, x, y, z⟩, rest)) ∧
    exOk (readtiles c7stream) = true ∧
    (read_header c7stream = .ok (⟨64, 0, 0, 1⟩,
      (gridPoints 0 0 8).flatMap fun p => [p.x, p.y, 0, 0])) := by
  exact ⟨fun c x y z rest => rfl, by decide, rfl⟩

-- ### Relational tile store (pyosm/mbtile/filelike.py)

/-- One row of the `tiles` table (spec §6 schema). -/
structure TileRow where
  zoom_level : Nat
  tile_column : Nat
  tile_row : Nat
  tile_data : List Nat
deriving DecidableEq, Repr

/-- An mbtiles file: a `tiles` table and a `metadata` key/value table. -/
structure MBTileDB where
  tiles : List TileRow
  metadata : List (String × String)
deriving Repr

/-- filelike.py `MBTileFile.readtile`: the SQL is
`WHERE zoom_level=? AND tile_row=? AND tile_column=?` with parameter
tuple (z, x, y) — so x is bound to tile_row and y to tile_column;
fetchone returns the first matching row, and a missing row raises. -/
def readtile (db : MBTileDB) (z x y : Nat) : Except Err (List Nat) :=
  match db.tiles.find? (fun r =>
      r.zoom_level == z && r.tile_row == x && r.tile_column == y) with
  | some r => .ok r.tile_data
  | none => .error .notFound

/-- Python `sub in s` on strings: substring containment (the empty string
is a substring of everything). -/
def pyInStr (sub : List Char) : List Char → Bool
  | [] => sub.isEmpty
  | c :: rest => sub.isPrefixOf (c :: rest) || pyInStr sub rest

def rbChars : List Char := ['r', 'b']

/-- filelike.py `Metadata` namedtuple. -/
structure Metadata where
  center : String
  format : String
  boundsStr : String
  minzoom : Nat
  maxzoom : Nat
deriving DecidableEq, Repr

def keyCenter : String := "center"

def keyFormat : String := "format"

def keyBounds : String := "bounds"

def keyMinzoom : String := "minzoom"

def keyMaxzoom : String := "maxzoom"

/-- filelike.py `_get_metadata` row loop: later rows overwrite earlier
bindings, so the last row with a given name wins.  (Python's
`"center" in row` iterates the row's (name, value) pair, so a value equal
to the key would also match; the intended name match is modelled.) -/
def findMeta (md : List (String × String)) (key : String) : Option String :=
  (md.reverse.find? fun e => e.1 == key).map fun e => e.2

/-- filelike.py `_get_metadata`: all five keys must be present (otherwise
the final Metadata(...) hits an unbound local) and minzoom/maxzoom must
be integer-parseable. -/
def get_metadata (db : MBTileDB) : Except Err Metadata :=
  match findMeta db.metadata keyCenter, findMeta db.metadata keyFormat,
      findMeta db.metadata keyBounds, findMeta db.metadata keyMinzoom,
      findMeta db.metadata keyMaxzoom with
  | some c, some f, some b, some mi, some ma =>
    match parseNat? mi.toList, parseNat? ma.toList with
    | some mi', some ma' => .ok ⟨c, f, b, mi', ma'⟩
    | _, _ => .error .invalidFormat
  | _, _, _, _, _ => .error .typeErr

/-- filelike.py `_get_bounds`, one zoom level: the MIN/MAX aggregates over
the rows of that zoom return NULL when no row matches, and Python's
int(None) then raises; otherwise Bound(z, min_x, max_x, min_y, max_y,
flip_y=True). -/
def zoomBound (tiles : List TileRow) (z : Nat) : Except Err Bound :=
  match ((tiles.filter fun r => r.zoom_level == z).map fun r => r.tile_column).min?,
      ((tiles.filter fun r => r.zoom_level == z).map fun r => r.tile_column).max?,
      ((tiles.filter fun r => r.zoom_level == z).map fun r => r.tile_row).min?,
      ((tiles.filter fun r => r.zoom_level == z).map fun r => r.tile_row).max? with
  | some a, some b, some c, some d => .ok ⟨z, a, b, c, d, true⟩
  | _, _, _, _ => .error .typeErr

/-- filelike.py `_get_bounds` loop over range(minzoom, maxzoom + 1),
with fuel n = number of zooms left, starting at z. -/
def boundsLoop (tiles : List TileRow) : Nat → Nat → Except Err (List Bound)
  | _, 0 => .ok []
  | z, n + 1 =>
    Except.bind (zoomBound tiles z) fun b =>
      Except.bind (boundsLoop tiles (z + 1) n) fun rest =>
        .ok (b :: rest)

/-- filelike.py `_get_bounds`. -/
def get_bounds (tiles : List TileRow) (minzoom maxzoom : Nat) :
    Except Err (List Bound) :=
  boundsLoop tiles minzoom (maxzoom + 1 - minzoom)

/-- An open MBTileFile handle: metadata and bounds are set only when the
mode is exactly "rb". -/
structure MBHandle where
  metadata : Option Metadata
  bounds : Option (List Bound)
deriving Repr

/-- filelike.py `MBTileFile.__init__` (and the module-level `open`
wrapper): the mode check `if mode not in ("rb")` is a substring test
against the *string* "rb" — the parenthesised expression is a string, not
a tuple — and metadata/bounds are loaded only when mode == "rb". -/
def mbtile_open (db : MBTileDB) (mode : List Char) : Except Err MBHandle :=
  if pyInStr mode rbChars = false then .error .unsupportedMode
  else if mode == rbChars then
    Except.bind (get_metadata db) fun md =>
      Except.bind (get_bounds db.tiles md.minzoom md.maxzoom) fun bs =>
        .ok ⟨some md, some bs⟩
  else .ok ⟨none, none⟩

-- ### Bounds-derivation lemmas

theorem zoomBound_ok (tiles : List TileRow) (z : Nat) :
    exOk (zoomBound tiles z) = true ↔
      tiles.filter (fun r => r.zoom_level == z) ≠ [] := by
  cases hfil : tiles.filter (fun r => r.zoom_level == z) with
  | nil => simp [zoomBound, hfil, exOk]
  | cons r t => simp [zoomBound, hfil, exOk, List.min?, List.max?]

theorem boundsLoop_succ (tiles : List TileRow) (z n : Nat) :
    exOk (boundsLoop tiles z (n + 1)) =
      (exOk (zoomBound tiles z) && exOk (boundsLoop tiles (z + 1) n)) := by
  simp only [boundsLoop]
  cases zoomBound tiles z with
  | error e => rfl
  | ok b =>
    cases boundsLoop tiles (z + 1) n with
    | error e => rfl
    | ok bs => rfl

theorem boundsLoop_ok (tiles : List TileRow) :
    ∀ (n z : Nat), exOk (boundsLoop tiles z n) = true ↔
      ∀ k, k < n → tiles.filter (fun r => r.zoom_level == (z + k)) ≠ [] := by
  intro n
  induction n with
  | zero =>
    intro z
    simp [boundsLoop, exOk]
  | succ n ih =>
    intro z
    rw [boundsLoop_succ, Bool.and_eq_true, ih (z + 1), zoomBound_ok]
    constructor
    · rintro ⟨h0, hrest⟩ k hk
      cases k with
      | zero => simpa using h0
      | succ k =>
        have hr := hrest k (by omega)
        rw [show z + 1 + k = z + (k + 1) from by omega] at hr
        exact hr
    · intro h
      refine ⟨by simpa using h 0 (by omega), fun k hk => ?_⟩
      have hr := h (k + 1) (by omega)
      rw [show z + (k + 1) = z + 1 + k from by omega] at hr
      exact hr

theorem get_bounds_ok (tiles : List TileRow) (minz maxz : Nat) :
    exOk (get_bounds tiles minz maxz) = true ↔
      ∀ z, minz ≤ z → z ≤ maxz → ∃ r ∈ tiles, r.zoom_level = z := by
  unfold get_bounds
  rw [boundsLoop_ok]
  constructor
  · intro h z h1 h2
    have hf := h (z - minz) (by omega)
    rw [show minz + (z - minz) = z from by omega] at hf
    obtain ⟨r, hr⟩ := List.exists_mem_of_ne_nil _ hf
    obtain ⟨hrt, hrz⟩ := List.mem_filter.mp hr
    exact ⟨r, hrt, by simpa using hrz⟩
  · intro h k hk
    obtain ⟨r, hrt, hrz⟩ := h (minz + k) (by omega) (by omega)
    exact List.ne_nil_of_mem (List.mem_filter.mpr ⟨hrt, by simpa using hrz⟩)

-- ### Claims C5, C6, C10

def strFive : String := "5"

/-- C5: the claim says readtile(z, x, y) returns the payload of the row
keyed by (zoom_level=z, tile_column=x, tile_row=y).  The code binds the
parameter tuple (z, x, y) to (zoom_level, tile_row, tile_column) — x and
y are swapped relative to the class's own docstring (tile_column = x,
tile_row = y).  Against a table holding the single row (zoom_level=1,
tile_column=2, tile_row=3), readtile(1, 2, 3) fails with NotFound while
readtile(1, 3, 2) returns the payload. -/
theorem claim_c5_swapped_axes :
    readtile ⟨[⟨1, 2, 3, [9]⟩], []⟩ 1 2 3 = .error .notFound ∧
    readtile ⟨[⟨1, 2, 3, [9]⟩], []⟩ 1 3 2 = .ok [9] := by
  exact ⟨rfl, rfl⟩

/-- C6: the claim says every mode other than "rb" raises UnsupportedMode
(IOError).  The check `if mode not in ("rb")` tests substring membership
of the string "rb", so mode "r" (likewise "b" and "") is accepted and a
usable handle is returned with metadata and bounds unset; "w" does
raise. -/
theorem claim_c6_mode_check :
    mbtile_open ⟨[], []⟩ [Char.ofNat 114] = .ok ⟨none, none⟩ ∧
    mbtile_open ⟨[], []⟩ [Char.ofNat 98] = .ok ⟨none, none⟩ ∧
    mbtile_open ⟨[], []⟩ [] = .ok ⟨none, none⟩ ∧
    mbtile_open ⟨[], []⟩ [Char.ofNat 119] = .error .unsupportedMode := by
  exact ⟨rfl, rfl, rfl, rfl⟩

/-- C10: opening the relational store in mode "rb" succeeds only if every
zoom level in [minzoom, maxzoom] has at least one row: the bounds
derivation succeeds exactly when every zoom in the range is non-empty
(the per-zoom MIN/MAX aggregates return NULL on an empty zoom and the
int() conversion then raises), and an open that returned a handle implies
every zoom in the metadata range has a row. -/
theorem claim_c10_bounds_derivation :
    (∀ (tiles : List TileRow) (minz maxz : Nat),
      exOk (get_bounds tiles minz maxz) = true ↔
        ∀ z, minz ≤ z → z ≤ maxz → ∃ r ∈ tiles, r.zoom_level = z) ∧
    (∀ (db : MBTileDB) (md : Metadata) (h : MBHandle),
      get_metadata db = .ok md →
      mbtile_open db rbChars = .ok h →
      ∀ z, md.minzoom ≤ z → z ≤ md.maxzoom →
        ∃ r ∈ db.tiles, r.zoom_level = z) := by
  constructor
  · exact get_bounds_ok
  · intro db md h hmd hopen z h1 h2
    have hpy : pyInStr rbChars rbChars = true := by decide
    unfold mbtile_open at hopen
    rw [hpy] at hopen
    simp only [Bool.true_eq_false, if_false, BEq.refl, if_true, hmd,
      except_bind_ok] at hopen
    cases hgb : get_bounds db.tiles md.minzoom md.maxzoom with
    | error e => rw [hgb] at hopen; exact absurd hopen (by simp [Except.bind])
    | ok bs =>
      exact (get_bounds_ok db.tiles md.minzoom md.maxzoom).mp
        (by rw [hgb]; rfl) z h1 h2

theorem claim_c10_witness :
    (get_metadata ⟨[⟨5, 3, 4, []⟩],
        [(keyCenter, emptyStyle), (keyFormat, emptyStyle),
         (keyBounds, emptyStyle), (keyMinzoom, strFive),
         (keyMaxzoom, strFive)]⟩ =
      .ok ⟨emptyStyle, emptyStyle, emptyStyle, 5, 5⟩) ∧
    (∃ r ∈ (MBTileDB.mk [⟨5, 3, 4, []⟩]
        [(keyCenter, emptyStyle), (keyFormat, emptyStyle),
         (keyBounds, emptyStyle), (keyMinzoom, strFive),
         (keyMaxzoom, strFive)]).tiles, r.zoom_level = 5) := by
  refine ⟨rfl, ?_⟩
  exact claim_c10_bounds_derivation.2
    ⟨[⟨5, 3, 4, []⟩],
      [(keyCenter, emptyStyle), (keyFormat, emptyStyle),
       (keyBounds, emptyStyle), (keyMinzoom, strFive),
       (keyMaxzoom, strFive)]⟩
    ⟨emptyStyle, emptyStyle, emptyStyle, 5, 5⟩
    ⟨some ⟨emptyStyle, emptyStyle, emptyStyle, 5, 5⟩, some [⟨5, 3, 3, 4, 4, true⟩]⟩
    rfl rfl 5 (by decide) (by decide)
